import Mathlib

/-!
# services.c: a shallow embedding

The program lists the units of the service manager, keeps the names that pass
the filter of `EnumerateServiceNames`, starts one `process_services` thread per
name and joins the threads in spawn order.  Each thread asks `systemctl` for the
unit's `FragmentPath`, parses the file at that path with `parse_service_file`
and builds one `ThreadData` record.

Conventions of the embedding.

* A byte is a `Char`; the code only ever compares bytes with ASCII characters.
* `CStr` is the contents of a NUL-terminated string, the terminator excluded.
  Raw bytes that come from outside (a line read by `fgets`) become a `CStr`
  through `cstr`, which stops at the first NUL byte, as every C string function
  does.
* The outside world is a record `Env`: what `popen` and `pclose` do for a
  command line and what `fopen` does for a path.
* `malloc`, `realloc`, `strdup`, `pthread_create` and `pthread_join` are taken
  to succeed; the bytes of a fresh `malloc` block are a parameter (`uninit`),
  because `process_services` leaves part of its block unwritten on one path.
* A thread is represented by the value it returns; `strtok` keeps its position
  in explicit state, so the interference between threads through the hidden
  static state of the C function is outside the embedding.
* What the program prints (`printf`, `perror`) is not part of the embedding;
  the report is the array `thread_data_array` that `main` prints in index
  order.
-/

namespace Services

/-- Contents of a NUL-terminated C string, without the terminator. -/
abbrev CStr := List Char

/-- `#define COMMAND_BUFFER_SIZE 256`. -/
def COMMAND_BUFFER_SIZE : Nat := 256

/-- `#define MAX_LINE_LENGTH 256`. -/
def MAX_LINE_LENGTH : Nat := 256

/-! ## C library functions -/

/-- The C string that starts at the beginning of a buffer: the bytes before
the first NUL. -/
def cstr (buf : List Char) : CStr :=
  buf.takeWhile (fun c => c != '\x00')

/-- Inner loop of `fgets`: store at most `n` bytes, stop after a newline or at
end of file.  Returns the bytes stored and the unread rest of the stream. -/
def fgetsAux : Nat → List Char → List Char × List Char
  | 0, s => ([], s)
  | _ + 1, [] => ([], [])
  | n + 1, c :: s =>
    if c = '\n' then ([c], s)
    else ((fgetsAux n s).1.cons c, (fgetsAux n s).2)

/-- `fgets(buf, size, stream)`: `none` is the NULL return at end of file;
otherwise the bytes stored in `buf` (at most `size - 1`) and the rest of the
stream. -/
def fgets (size : Nat) (stream : List Char) : Option (List Char × List Char) :=
  match stream with
  | [] => none
  | _ :: _ => some (fgetsAux (size - 1) stream)

/-- `strcspn(s, reject)`: length of the initial segment of `s` free of the
bytes of `reject`. -/
def strcspn (s : CStr) (reject : List Char) : Nat :=
  (s.takeWhile (fun c => !reject.contains c)).length

/-- `strtok` with its saved position made explicit.  `strtok s delim` scans the
string `s` (the argument of a first call, or the saved position of a
`strtok(NULL, delim)` call): it skips leading delimiters, returns the token up
to the next delimiter (`none` when no token is left) and the new saved
position, just after the delimiter that ended the token. -/
def strtok (s : CStr) (delim : List Char) : Option CStr × CStr :=
  match s.dropWhile (fun c => delim.contains c) with
  | [] => (none, [])
  | c :: t =>
    (some ((c :: t).takeWhile (fun x => !delim.contains x)),
     ((c :: t).dropWhile (fun x => !delim.contains x)).drop 1)

/-- `strncpy(dst, src, n)` into a buffer of `n + 1` bytes whose last byte is
zero (the `memset` of `parse_service_file`): `n` bytes are written, the bytes
of `src` and then padding zeros, so the string left in `dst` is the first `n`
bytes of `src` whatever `dst` held before. -/
def strncpy (src : CStr) (n : Nat) : CStr :=
  src.take n

/-- `snprintf(dst, size, "%s", s)`: the string left in `dst`. -/
def snprintf_s (size : Nat) (s : CStr) : CStr :=
  s.take (size - 1)

/-- `strstr(haystack, needle)`: the part of `haystack` from the first
occurrence of `needle` on, `none` for the NULL return. -/
def strstr : CStr → CStr → Option CStr
  | [], needle => if needle = [] then some [] else none
  | c :: t, needle =>
    if needle.isPrefixOf (c :: t) then some (c :: t) else strstr t needle

/-! ## The service manager and `EnumerateServiceNames` -/

/-- One record of the `ListUnits` reply, signature `(ssssssouso)`. -/
structure UnitInfo where
  name : CStr
  description : CStr
  load_state : CStr
  active_state : CStr
  sub_state : CStr
  following : CStr
  unit_id : Nat
  object_path : CStr
  job_type : CStr
  job_path : CStr
  deriving DecidableEq, Repr

/-- What the bus does during one run of `EnumerateServiceNames`: the return
values of `sd_bus_open_system`, `sd_bus_call_method` and
`sd_bus_message_enter_container`, the records for which
`sd_bus_message_read` returns a positive value, and the first return value of
`sd_bus_message_read` that is not positive (0 at the end of the array, negative
on a read error). -/
structure Bus where
  open_r : Int
  call_r : Int
  enter_r : Int
  units : List UnitInfo
  end_r : Int

/-- State of the read loop: the array `*serviceNames` up to `*count`, `*count`
and `capacity`. -/
structure EnumState where
  serviceNames : List CStr
  count : Nat
  capacity : Nat
  deriving DecidableEq, Repr

/-- Body of the `while` loop of `EnumerateServiceNames` for one record. -/
def enum_step (st : EnumState) (u : UnitInfo) : EnumState :=
  if (strstr u.name ".service".toList).isSome then
    let capacity := if st.count ≥ st.capacity then st.capacity * 2 else st.capacity
    { serviceNames := st.serviceNames ++ [u.name],
      count := st.count + 1,
      capacity := capacity }
  else st

/-- The `while` loop of `EnumerateServiceNames`. -/
def enum_loop : EnumState → List UnitInfo → EnumState
  | st, [] => st
  | st, u :: us => enum_loop (enum_step st u) us

/-- `EnumerateServiceNames(&serviceNames, &count)`: the `bool` result and, when
it is `true`, the array and the count handed back to the caller. -/
def EnumerateServiceNames (bus : Bus) : Bool × List CStr × Nat :=
  if bus.open_r < 0 then (false, [], 0)
  else if bus.call_r < 0 then (false, [], 0)
  else if bus.enter_r < 0 then (false, [], 0)
  else
    let st := enum_loop { serviceNames := [], count := 0, capacity := 10 } bus.units
    if bus.end_r < 0 then (false, [], 0)
    else (true, st.serviceNames, st.count)

/-! ## The outside world of a worker thread -/

/-- The environment of `execute_command` and `parse_service_file`. -/
structure Env where
  /-- `popen(command, "r")`: the standard output of the command, `none` when
  `popen` returns NULL. -/
  popen : CStr → Option (List Char)
  /-- Whether `pclose` returns -1 for the stream of that command. -/
  pclose_fails : CStr → Bool
  /-- `fopen(path, "r")`: the bytes of the file, `none` when it returns NULL. -/
  fopen : CStr → Option (List Char)

/-- `execute_command(command, output, output_size)`: `none` stands for the
return value -1, `some out` for the return value 0 with `out` the string left in
`output`. -/
def execute_command (env : Env) (command : CStr) (output_size : Nat) : Option CStr :=
  match env.popen command with
  | none => none
  | some stream =>
    let output : CStr :=
      match fgets COMMAND_BUFFER_SIZE stream with
      | some (buffer, _) => (cstr buffer).take (output_size - 1)
      | none => []
    if env.pclose_fails command then none else some output

/-! ## `parse_service_file` -/

/-- `ServiceFileData`: the string held by each of the four arrays. -/
structure ServiceFileData where
  type : CStr
  exec_start : CStr
  description : CStr
  user : CStr
  deriving DecidableEq, Repr

/-- `memset(data, 0, sizeof(ServiceFileData))`. -/
def ServiceFileData.zero : ServiceFileData :=
  { type := [], exec_start := [], description := [], user := [] }

/-- Body of the `while` loop of `parse_service_file` for the bytes `buf` that
one `fgets` call stored in `line`. -/
def parse_line (data : ServiceFileData) (buf : List Char) : ServiceFileData :=
  let line0 := cstr buf
  -- line[strcspn(line, "\r\n")] = 0;
  let line := line0.take (strcspn line0 ['\r', '\n'])
  -- if (line[0] == '\0' || line[0] == '#') continue;
  match line with
  | [] => data
  | c :: _ =>
    if c = '#' then data
    else
      let (key, saved) := strtok line ['=']
      let (value, _) := strtok saved ['=']
      match key, value with
      | some key, some value =>
        if key = "Type".toList then
          { data with type := strncpy value (MAX_LINE_LENGTH - 1) }
        else if key = "ExecStart".toList then
          { data with exec_start := strncpy value (MAX_LINE_LENGTH - 1) }
        else if key = "Description".toList then
          { data with description := strncpy value (MAX_LINE_LENGTH - 1) }
        else if key = "User".toList then
          { data with user := strncpy value (MAX_LINE_LENGTH - 1) }
        else data
      | _, _ => data

/-- The loop `while (fgets(line, sizeof(line), file)) { ... }`, with a bound on
the number of iterations. -/
def parse_loop : Nat → List Char → ServiceFileData → ServiceFileData
  | 0, _, data => data
  | fuel + 1, stream, data =>
    match fgets MAX_LINE_LENGTH stream with
    | none => data
    | some (buf, rest) => parse_loop fuel rest (parse_line data buf)

/-- `parse_service_file(file_path, data)`: the contents of `*data` on return.
Every `fgets` call that returns a line consumes at least one byte, so the
length of the file bounds the number of iterations (`parse_loop_fuel`). -/
def parse_service_file (env : Env) (file_path : CStr) : ServiceFileData :=
  match env.fopen file_path with
  | none => ServiceFileData.zero
  | some contents => parse_loop contents.length contents ServiceFileData.zero

/-! ## `process_services` and the collection step of `main` -/

/-- `ThreadData`: the string held by each of the six arrays. -/
structure ThreadData where
  service_name : CStr
  fragment_path : CStr
  type : CStr
  exec_start : CStr
  description : CStr
  user : CStr
  deriving DecidableEq, Repr

/-- What one run of `process_services` does: the pointer it returns (`none` is
NULL) and the paths it passed to `parse_service_file`, in call order. -/
structure TaskRun where
  result : Option ThreadData
  parsed : List CStr
  deriving DecidableEq, Repr

/-- The `if (strcmp(field, "") == 0) ... else ...` blocks of
`process_services`. -/
def or_not_specified (field : CStr) : CStr :=
  if field = [] then snprintf_s MAX_LINE_LENGTH "Not specified".toList
  else snprintf_s MAX_LINE_LENGTH field

/-- The string left in `command` by
`snprintf(command, sizeof(command), "systemctl show -p FragmentPath %s", name)`. -/
def query_command (service_name : CStr) : CStr :=
  snprintf_s COMMAND_BUFFER_SIZE ("systemctl show -p FragmentPath ".toList ++ service_name)

/-- `process_services(service_name)`.  `uninit` is what the block returned by
`malloc` holds before the function writes to it. -/
def process_services_run (env : Env) (uninit : ThreadData) (service_name : CStr) : TaskRun :=
  let td := { uninit with service_name := snprintf_s COMMAND_BUFFER_SIZE service_name }
  let command := query_command service_name
  match execute_command env command COMMAND_BUFFER_SIZE with
  | none => { result := none, parsed := [] }
  | some output =>
    match strstr output "FragmentPath=".toList with
    | some found =>
      let path_start := found.drop "FragmentPath=".toList.length
      let path_start := path_start.take (strcspn path_start ['\r', '\n'])
      let data := parse_service_file env path_start
      { result := some
          { service_name := td.service_name,
            fragment_path := snprintf_s COMMAND_BUFFER_SIZE path_start,
            type := or_not_specified data.type,
            description := or_not_specified data.description,
            exec_start := or_not_specified data.exec_start,
            user := or_not_specified data.user },
        parsed := [path_start] }
    | none =>
      { result := some
          { td with fragment_path :=
              snprintf_s COMMAND_BUFFER_SIZE "Service file not found".toList },
        parsed := [] }

/-- The pointer returned by `process_services`. -/
def process_services (env : Env) (uninit : ThreadData) (service_name : CStr) :
    Option ThreadData :=
  (process_services_run env uninit service_name).result

/-- First loop of `main`: one thread per name, each represented by the value
its `process_services` call returns.  `uninit i` is the fresh block of the
thread with index `i`. -/
def spawn_all (env : Env) (uninit : Nat → ThreadData) : Nat → List CStr → List (Option ThreadData)
  | _, [] => []
  | i, name :: names =>
    process_services env (uninit i) name :: spawn_all env uninit (i + 1) names

/-- Second loop of `main`: join in spawn order and copy `*(ThreadData *)result`
into `thread_data_array[i]`.  `none` is the fault of reading through a NULL
result. -/
def join_all : List (Option ThreadData) → Option (List ThreadData)
  | [] => some []
  | none :: _ => none
  | some r :: rest =>
    match join_all rest with
    | none => none
    | some rs => some (r :: rs)

/-- The collection step of `main` for the enumerated names: the array
`thread_data_array` that the report is printed from, `none` when the program
faults before the report. -/
def collect (env : Env) (uninit : Nat → ThreadData) (serviceNames : List CStr) :
    Option (List ThreadData) :=
  join_all (spawn_all env uninit 0 serviceNames)

/-! ## Helper definitions for the statements -/

/-- The loop of `parse_service_file` run on a stream with the bound that
`parse_service_file` uses. -/
def parse_stream (stream : List Char) (data : ServiceFileData) : ServiceFileData :=
  parse_loop stream.length stream data

/-- An environment whose every `fopen` yields a file with the given bytes. -/
def fileEnv (contents : List Char) : Env :=
  { popen := fun _ => none, pclose_fails := fun _ => false, fopen := fun _ => some contents }

/-- The four keys that `parse_service_file` recognises. -/
inductive Key where
  | type
  | exec_start
  | description
  | user
  deriving DecidableEq, Repr

/-- The text that `strcmp` compares the key token with. -/
def Key.name : Key → CStr
  | .type => "Type".toList
  | .exec_start => "ExecStart".toList
  | .description => "Description".toList
  | .user => "User".toList

/-- The field of `ServiceFileData` that belongs to a key. -/
def ServiceFileData.get (data : ServiceFileData) : Key → CStr
  | .type => data.type
  | .exec_start => data.exec_start
  | .description => data.description
  | .user => data.user

/-- A byte that none of the scanning steps of `parse_service_file` treats
specially: not NUL, not a line terminator, not the separator. -/
def plain (c : Char) : Bool :=
  c != '\x00' && c != '\r' && c != '\n' && c != '='

/-- The file is empty or its last byte is a newline, so the next `fgets` call
starts at the byte that follows. -/
def LineEnded (A : List Char) : Prop :=
  A = [] ∨ ∃ A0, A = A0 ++ ['\n']

/-- The line as the loop body sees it after `line[strcspn(line, "\r\n")] = 0`. -/
def vis (buf : List Char) : CStr :=
  (cstr buf).take (strcspn (cstr buf) ['\r', '\n'])

/-- The `if`/`else if` chain of `parse_service_file` for a key and a value. -/
def store (data : ServiceFileData) (key value : CStr) : ServiceFileData :=
  if key = "Type".toList then
    { data with type := strncpy value (MAX_LINE_LENGTH - 1) }
  else if key = "ExecStart".toList then
    { data with exec_start := strncpy value (MAX_LINE_LENGTH - 1) }
  else if key = "Description".toList then
    { data with description := strncpy value (MAX_LINE_LENGTH - 1) }
  else if key = "User".toList then
    { data with user := strncpy value (MAX_LINE_LENGTH - 1) }
  else data

/-- Overwrite the field of a key. -/
def ServiceFileData.set (data : ServiceFileData) (k : Key) (v : CStr) : ServiceFileData :=
  match k with
  | .type => { data with type := v }
  | .exec_start => { data with exec_start := v }
  | .description => { data with description := v }
  | .user => { data with user := v }

/-- The bytes that end the visible line: NUL, carriage return, newline. -/
def lineChar (c : Char) : Bool :=
  c != '\x00' && !(['\r', '\n'].contains c)

/-- The predicate "is not the separator" that `strtok` scans tokens with. -/
def notSep (c : Char) : Bool :=
  c != '='

/-- The bytes of a file made of the given lines, each followed by a newline. -/
def unlines : List (List Char) → List Char
  | [] => []
  | L :: Ls => L ++ '\n' :: unlines Ls

/-- A fresh block whose bytes are all zero. -/
def zeroBlock : ThreadData :=
  { service_name := [], fragment_path := [], type := [], exec_start := [],
    description := [], user := [] }

/-- An environment in which every property query prints an empty
`FragmentPath` and no file can be opened. -/
def emptyPathEnv : Env :=
  { popen := fun _ => some "FragmentPath=\n".toList,
    pclose_fails := fun _ => false,
    fopen := fun _ => none }

/-- As `emptyPathEnv`, except that `popen` fails for the query of
`b.service`. -/
def failingQueryEnv : Env :=
  { popen := fun command =>
      if command = query_command "b.service".toList then none
      else some "FragmentPath=\n".toList,
    pclose_fails := fun _ => false,
    fopen := fun _ => none }

/-- An environment in which every property query prints nothing. -/
def silentEnv : Env :=
  { popen := fun _ => some [],
    pclose_fails := fun _ => false,
    fopen := fun _ => none }

/-- A `ListUnits` record with the given name. -/
def unitNamed (name : String) : UnitInfo :=
  { name := name.toList, description := [], load_state := [], active_state := [],
    sub_state := [], following := [], unit_id := 0, object_path := [],
    job_type := [], job_path := [] }

/-- A reply with a service, the mount unit of the path `/srv/x.service`, and a
socket. -/
def mountBus : Bus :=
  { open_r := 0, call_r := 0, enter_r := 1,
    units := [unitNamed "a.service", unitNamed "srv-x.service.mount", unitNamed "b.socket"],
    end_r := 0 }

/-- A comment line of 264 bytes: `#`, 254 times `x`, then `Type=evil`. -/
def longLine : List Char :=
  '#' :: List.replicate 254 'x' ++ "Type=evil".toList

/-! ## The read loop -/

theorem fgetsAux_append_eq (n : Nat) (s : List Char) :
    (fgetsAux n s).1 ++ (fgetsAux n s).2 = s := by
  induction s generalizing n with
  | nil => cases n <;> simp [fgetsAux]
  | cons c s ih =>
    cases n with
    | zero => simp [fgetsAux]
    | succ n =>
      by_cases h : c = '\n'
      · simp [fgetsAux, h]
      · simp [fgetsAux, h, ih]

theorem fgetsAux_rest_length (n : Nat) (c : Char) (s : List Char) :
    (fgetsAux (n + 1) (c :: s)).2.length ≤ s.length := by
  have h := congrArg List.length (fgetsAux_append_eq n s)
  by_cases hc : c = '\n'
  · simp [fgetsAux, hc]
  · simp only [fgetsAux, hc, if_false]
    simp only [List.length_append] at h
    omega

/-- Each successful `fgets` call of the loop shortens the stream. -/
theorem fgets_rest_length (s buf rest : List Char)
    (h : fgets MAX_LINE_LENGTH s = some (buf, rest)) : rest.length < s.length := by
  cases s with
  | nil => simp [fgets] at h
  | cons c s =>
    simp only [fgets, MAX_LINE_LENGTH, Option.some.injEq] at h
    have h2 := fgetsAux_rest_length 254 c s
    have h3 : (fgetsAux (254 + 1) (c :: s)).2 = rest := by
      have := congrArg Prod.snd h
      simpa using this
    rw [h3] at h2
    simp only [List.length_cons]
    omega

/-- Any bound that is at least the length of the stream gives the same result:
the loop always ends at end of file, never at the bound. -/
theorem parse_loop_fuel (f1 f2 : Nat) (s : List Char) (d : ServiceFileData)
    (h1 : s.length ≤ f1) (h2 : s.length ≤ f2) :
    parse_loop f1 s d = parse_loop f2 s d := by
  induction f1 generalizing f2 s d with
  | zero =>
    have hs : s = [] := List.length_eq_zero.mp (Nat.le_zero.mp h1)
    subst hs
    cases f2 <;> simp [parse_loop, fgets]
  | succ f1 ih =>
    cases f2 with
    | zero =>
      have hs : s = [] := List.length_eq_zero.mp (Nat.le_zero.mp h2)
      subst hs
      simp [parse_loop, fgets]
    | succ f2 =>
      simp only [parse_loop]
      cases hf : fgets MAX_LINE_LENGTH s with
      | none => rfl
      | some p =>
        obtain ⟨buf, rest⟩ := p
        have hlt := fgets_rest_length s buf rest hf
        exact ih f2 rest _ (by omega) (by omega)

theorem parse_loop_eq_stream (f : Nat) (s : List Char) (d : ServiceFileData)
    (h : s.length ≤ f) : parse_loop f s d = parse_stream s d :=
  parse_loop_fuel f s.length s d h (Nat.le_refl _)

theorem parse_stream_nil (d : ServiceFileData) : parse_stream [] d = d := rfl

theorem parse_service_file_fileEnv (contents : List Char) (path : CStr) :
    parse_service_file (fileEnv contents) path = parse_stream contents ServiceFileData.zero := rfl

/-- A line of fewer than `n` bytes is read whole, terminator included. -/
theorem fgetsAux_line (n : Nat) (L rest : List Char) (hnl : '\n' ∉ L) (hlen : L.length < n) :
    fgetsAux n (L ++ '\n' :: rest) = (L ++ ['\n'], rest) := by
  induction L generalizing n with
  | nil =>
    cases n with
    | zero => simp at hlen
    | succ n => simp [fgetsAux]
  | cons c L ih =>
    cases n with
    | zero => simp at hlen
    | succ n =>
      have hc : c ≠ '\n' := fun h => hnl (by simp [h])
      have hL : '\n' ∉ L := fun h => hnl (by simp [h])
      have := ih n hL (by simpa using hlen)
      simp [fgetsAux, hc, this]

theorem parse_stream_line (L rest : List Char) (d : ServiceFileData)
    (hnl : '\n' ∉ L) (hlen : L.length < 255) :
    parse_stream (L ++ '\n' :: rest) d = parse_stream rest (parse_line d (L ++ ['\n'])) := by
  have hf : fgets MAX_LINE_LENGTH (L ++ '\n' :: rest) = some (L ++ ['\n'], rest) := by
    have := fgetsAux_line 255 L rest hnl hlen
    cases L <;> simp_all [fgets, MAX_LINE_LENGTH]
  have hl : (L ++ '\n' :: rest).length = (L.length + rest.length) + 1 := by
    simp; omega
  unfold parse_stream
  rw [hl]
  simp only [parse_loop, hf]
  exact parse_loop_eq_stream _ _ _ (by omega)

theorem fgets_of_ne_nil (size : Nat) (s : List Char) (h : s ≠ []) :
    fgets size s = some (fgetsAux (size - 1) s) := by
  cases s with
  | nil => exact absurd rfl h
  | cons c s => rfl

/-- Reading from a stream whose first part ends in a newline never reaches
beyond that part: the call stops at a newline or at the size limit first. -/
theorem fgetsAux_append (n : Nat) (A0 B : List Char) :
    fgetsAux n (A0 ++ '\n' :: B)
      = ((fgetsAux n (A0 ++ ['\n'])).1, (fgetsAux n (A0 ++ ['\n'])).2 ++ B) := by
  induction A0 generalizing n with
  | nil => cases n <;> simp [fgetsAux]
  | cons c A0 ih =>
    cases n with
    | zero => simp [fgetsAux]
    | succ n =>
      by_cases hc : c = '\n'
      · simp [fgetsAux, hc]
      · simp [fgetsAux, hc, ih n]

theorem fgetsAux_rest_ended (n : Nat) (A0 : List Char) :
    LineEnded (fgetsAux n (A0 ++ ['\n'])).2 := by
  induction A0 generalizing n with
  | nil =>
    cases n with
    | zero => exact Or.inr ⟨[], by simp [fgetsAux]⟩
    | succ n => exact Or.inl (by simp [fgetsAux])
  | cons c A0 ih =>
    cases n with
    | zero => exact Or.inr ⟨c :: A0, by simp [fgetsAux]⟩
    | succ n =>
      by_cases hc : c = '\n'
      · exact Or.inr ⟨A0, by simp [fgetsAux, hc]⟩
      · have := ih n
        simpa [fgetsAux, hc] using this

/-- The loop run on `A ++ B`, where `A` is empty or ends in a newline, is the
loop run on `A` followed by the loop run on `B`. -/
theorem parse_loop_append (f : Nat) (A B : List Char) (d : ServiceFileData)
    (hA : LineEnded A) (hf : (A ++ B).length ≤ f) :
    parse_loop f (A ++ B) d = parse_stream B (parse_stream A d) := by
  induction f generalizing A d with
  | zero =>
    have h0 : A ++ B = [] := List.length_eq_zero.mp (Nat.le_zero.mp hf)
    obtain ⟨hA0, hB0⟩ := List.append_eq_nil.mp h0
    subst hA0; subst hB0
    rfl
  | succ f ih =>
    rcases hA with hA | ⟨A0, hA⟩
    · subst hA
      simpa [parse_stream_nil] using parse_loop_eq_stream (f + 1) B d (by simpa using hf)
    · subst hA
      have e1 : fgets MAX_LINE_LENGTH (A0 ++ ['\n'] ++ B)
          = some ((fgetsAux 255 (A0 ++ ['\n'])).1, (fgetsAux 255 (A0 ++ ['\n'])).2 ++ B) := by
        rw [fgets_of_ne_nil _ _ (by simp)]
        have h255 : MAX_LINE_LENGTH - 1 = 255 := rfl
        rw [h255, List.append_assoc, List.singleton_append, fgetsAux_append]
      have e2 : fgets MAX_LINE_LENGTH (A0 ++ ['\n'])
          = some ((fgetsAux 255 (A0 ++ ['\n'])).1, (fgetsAux 255 (A0 ++ ['\n'])).2) := by
        rw [fgets_of_ne_nil _ _ (by simp)]
        rfl
      have hlt := fgets_rest_length _ _ _ e2
      have hlen : (A0 ++ ['\n']).length = A0.length + 1 := by simp
      have lhs : parse_loop (f + 1) (A0 ++ ['\n'] ++ B) d
          = parse_loop f ((fgetsAux 255 (A0 ++ ['\n'])).2 ++ B)
              (parse_line d (fgetsAux 255 (A0 ++ ['\n'])).1) := by
        simp only [parse_loop, e1]
      have rhs : parse_stream (A0 ++ ['\n']) d
          = parse_stream (fgetsAux 255 (A0 ++ ['\n'])).2
              (parse_line d (fgetsAux 255 (A0 ++ ['\n'])).1) := by
        unfold parse_stream
        rw [hlen]
        simp only [parse_loop, e2]
        exact parse_loop_fuel _ _ _ _ (by omega) (Nat.le_refl _)
      rw [lhs, rhs]
      apply ih _ _ (fgetsAux_rest_ended 255 A0)
      simp only [List.length_append] at hf hlt ⊢
      simp only [List.length_cons, List.length_nil] at hf hlt
      omega

theorem parse_stream_append (A B : List Char) (d : ServiceFileData) (hA : LineEnded A) :
    parse_stream (A ++ B) d = parse_stream B (parse_stream A d) :=
  parse_loop_append _ A B d hA (Nat.le_refl _)

/-! ## One line -/

theorem parse_line_eq (d : ServiceFileData) (buf : List Char) :
    parse_line d buf =
      match vis buf with
      | [] => d
      | c :: t =>
        if c = '#' then d
        else
          match (strtok (c :: t) ['=']).1, (strtok (strtok (c :: t) ['=']).2 ['=']).1 with
          | some key, some value => store d key value
          | _, _ => d := by
  unfold parse_line vis store
  simp only []
  generalize (cstr buf).take (strcspn (cstr buf) ['\r', '\n']) = line
  cases line with
  | nil => rfl
  | cons c t => rfl

theorem take_length_takeWhile (p : Char → Bool) (l : List Char) :
    l.take (l.takeWhile p).length = l.takeWhile p := by
  induction l with
  | nil => rfl
  | cons a l ih =>
    by_cases h : p a
    · simp [List.takeWhile_cons, h, ih]
    · simp [List.takeWhile_cons, h]

theorem takeWhile_takeWhile_and (p q : Char → Bool) (l : List Char) :
    (l.takeWhile p).takeWhile q = l.takeWhile (fun c => p c && q c) := by
  induction l with
  | nil => rfl
  | cons a l ih =>
    by_cases hp : p a <;> by_cases hq : q a <;> simp [List.takeWhile_cons, hp, hq, ih]

theorem vis_eq (buf : List Char) : vis buf = buf.takeWhile lineChar := by
  unfold vis strcspn cstr
  rw [take_length_takeWhile, takeWhile_takeWhile_and]
  rfl

theorem takeWhile_append_stop (p : Char → Bool) (l : List Char) (a : Char) (h : p a = false) :
    (l ++ [a]).takeWhile p = l.takeWhile p := by
  induction l with
  | nil => simp [List.takeWhile_cons, h]
  | cons b l ih =>
    by_cases hb : p b <;> simp [List.takeWhile_cons, hb, ih]

theorem vis_line (L : List Char) : vis (L ++ ['\n']) = L.takeWhile lineChar := by
  rw [vis_eq]
  exact takeWhile_append_stop _ _ _ (by rfl)

/-- A prefix cut by `p` that still holds a byte failing `r` has the same
`r`-prefix as the whole list. -/
theorem takeWhile_of_cut (p r : Char → Bool) (l : List Char)
    (h : (l.takeWhile p).dropWhile r ≠ []) :
    (l.takeWhile p).takeWhile r = l.takeWhile r := by
  induction l with
  | nil => simp at h
  | cons a l ih =>
    by_cases hp : p a
    · by_cases hr : r a
      · simp only [List.takeWhile_cons, hp, hr, if_true, List.dropWhile_cons] at h ⊢
        rw [ih h]
      · simp [List.takeWhile_cons, hp, hr]
    · simp [List.takeWhile_cons, hp] at h

theorem store_get_of_ne (d : ServiceFileData) (key value : CStr) (k : Key)
    (h : key ≠ k.name) : (store d key value).get k = d.get k := by
  unfold store
  cases k <;> simp only [Key.name] at h <;> split_ifs <;>
    first
    | rfl
    | (exfalso; apply h; assumption)

theorem store_name (d : ServiceFileData) (k : Key) (v : CStr) (hv : v.length ≤ 255) :
    store d k.name v = d.set k v := by
  have ht : strncpy v (MAX_LINE_LENGTH - 1) = v := by
    unfold strncpy
    exact List.take_of_length_le (by simpa [MAX_LINE_LENGTH] using hv)
  cases k <;> simp [store, Key.name, ht, ServiceFileData.set]

theorem contains_sep (c : Char) : ['='].contains c = (c == '=') := by
  by_cases h : c = '=' <;> simp [h]

theorem strtok_nil : strtok [] ['='] = (none, []) := rfl

/-- A first byte other than the separator starts the token. -/
theorem strtok_first (c : Char) (t : List Char) (hc : c ≠ '=') :
    strtok (c :: t) ['=']
      = (some ((c :: t).takeWhile notSep), ((c :: t).dropWhile notSep).drop 1) := by
  have h1 : (fun x : Char => ['='].contains x) = fun x => x == '=' := by
    funext x; exact contains_sep x
  have h2 : (fun x : Char => !(['='].contains x)) = notSep := by
    funext x; rw [contains_sep]; rfl
  unfold strtok
  rw [h1, h2]
  have h3 : (c :: t).dropWhile (fun x => x == '=') = c :: t := by
    simp [List.dropWhile_cons, hc]
  rw [h3]

theorem plain_notSep (c : Char) (h : plain c = true) : notSep c = true := by
  simp only [plain, notSep, Bool.and_eq_true] at h ⊢
  exact h.2

theorem plain_lineChar (c : Char) (h : plain c = true) : lineChar c = true := by
  simp only [plain, lineChar, Bool.and_eq_true, bne_iff_ne, ne_eq] at h
  obtain ⟨⟨⟨h0, h1⟩, h2⟩, _⟩ := h
  simp [lineChar, h0, h1, h2]

theorem plain_ne_sep (c : Char) (h : plain c = true) : c ≠ '=' := by
  have := plain_notSep c h
  simpa [notSep] using this

/-- A line `key=value` of plain bytes, the key not starting a comment, reaches
the `if` chain with exactly that key and that value. -/
theorem parse_line_kv (d : ServiceFileData) (c : Char) (t v : List Char)
    (hc : c ≠ '#') (hK : ∀ x ∈ c :: t, plain x = true)
    (hv0 : v ≠ []) (hv : ∀ x ∈ v, plain x = true) :
    parse_line d ((c :: t) ++ '=' :: v ++ ['\n']) = store d (c :: t) v := by
  have hall : ∀ x ∈ (c :: t) ++ '=' :: v, lineChar x = true := by
    intro x hx
    rcases List.mem_append.mp hx with h | h
    · exact plain_lineChar x (hK x h)
    · rcases List.mem_cons.mp h with h | h
      · subst h; rfl
      · exact plain_lineChar x (hv x h)
  have hvis : vis ((c :: t) ++ '=' :: v ++ ['\n']) = c :: (t ++ '=' :: v) := by
    have e : (c :: t) ++ '=' :: v ++ ['\n'] = ((c :: t) ++ '=' :: v) ++ ['\n'] := by simp
    rw [e, vis_line, List.takeWhile_eq_self_iff.mpr hall]
    rfl
  have hcsep : c ≠ '=' := plain_ne_sep c (hK c (by simp))
  have hKs : ∀ x ∈ c :: t, notSep x = true := fun x hx => plain_notSep x (hK x hx)
  have hs1 : strtok (c :: (t ++ '=' :: v)) ['='] = (some (c :: t), v) := by
    rw [strtok_first _ _ hcsep]
    have e : c :: (t ++ '=' :: v) = (c :: t) ++ '=' :: v := rfl
    rw [e, List.takeWhile_append_of_pos hKs, List.dropWhile_append_of_pos hKs]
    simp [notSep]
  obtain ⟨v0, v1, rfl⟩ := List.exists_cons_of_ne_nil hv0
  have hs2 : (strtok (v0 :: v1) ['=']).1 = some (v0 :: v1) := by
    rw [strtok_first _ _ (plain_ne_sep v0 (hv v0 (by simp)))]
    simp only
    rw [List.takeWhile_eq_self_iff.mpr (fun x hx => plain_notSep x (hv x hx))]
  rw [parse_line_eq, hvis]
  simp only [if_neg hc, hs1, hs2]

theorem key_name_cons (k : Key) :
    ∃ c t, k.name = c :: t ∧ c ≠ '#' ∧ ∀ x ∈ c :: t, plain x = true := by
  cases k
  · exact ⟨'T', "ype".toList, rfl, by decide, by decide⟩
  · exact ⟨'E', "xecStart".toList, rfl, by decide, by decide⟩
  · exact ⟨'D', "escription".toList, rfl, by decide, by decide⟩
  · exact ⟨'U', "ser".toList, rfl, by decide, by decide⟩

/-- An assignment line for a recognised key with a plain, non-empty value of
at most 255 bytes overwrites the field of that key with the value. -/
theorem parse_line_assign (d : ServiceFileData) (k : Key) (v : List Char)
    (hv0 : v ≠ []) (hv : ∀ x ∈ v, plain x = true) (hlen : v.length ≤ 255) :
    parse_line d (k.name ++ '=' :: v ++ ['\n']) = d.set k v := by
  obtain ⟨c, t, hk, hc, hK⟩ := key_name_cons k
  rw [hk, parse_line_kv d c t v hc hK hv0 hv, ← hk, store_name d k v hlen]

/-- A line that does not begin with the separator and whose text before the
first separator is not the name of `k` leaves the field of `k` as it was. -/
theorem parse_line_get_of_key_ne (d : ServiceFileData) (L : List Char) (k : Key)
    (h1 : L.head? ≠ some '=') (h2 : L.takeWhile notSep ≠ k.name) :
    (parse_line d (L ++ ['\n'])).get k = d.get k := by
  rw [parse_line_eq, vis_line]
  cases hP : L.takeWhile lineChar with
  | nil => rfl
  | cons c t =>
    simp only
    by_cases hc : c = '#'
    · rw [if_pos hc]
    · rw [if_neg hc]
      have hhead : L.head? = some c := by
        have := List.head?_takeWhile lineChar L
        rw [hP] at this
        cases L with
        | nil => simp at hP
        | cons a L =>
          by_cases ha : lineChar a
          · simp [List.takeWhile_cons, ha] at hP
            simp [hP.1]
          · simp [List.takeWhile_cons, ha] at hP
      have hcs : c ≠ '=' := fun h => h1 (by rw [hhead, h])
      rw [strtok_first c t hcs]
      simp only
      cases hv : (strtok (((c :: t).dropWhile notSep).drop 1) ['=']).1 with
      | none => rfl
      | some value =>
        simp only
        apply store_get_of_ne
        have hne : (c :: t).dropWhile notSep ≠ [] := by
          intro h0
          rw [h0] at hv
          simp [strtok_nil] at hv
        rw [← hP] at hne ⊢
        rw [takeWhile_of_cut lineChar notSep L hne]
        exact h2

/-! ## Whole files -/

theorem plain_ne_newline (c : Char) (h : plain c = true) : c ≠ '\n' := by
  simp only [plain, Bool.and_eq_true, bne_iff_ne, ne_eq] at h
  exact h.1.2

theorem newline_not_mem_assign (k : Key) (v : List Char) (hv : ∀ x ∈ v, plain x = true) :
    '\n' ∉ k.name ++ '=' :: v := by
  obtain ⟨c, t, hk, _, hK⟩ := key_name_cons k
  intro h
  rcases List.mem_append.mp h with h | h
  · rw [hk] at h
    exact plain_ne_newline _ (hK _ h) rfl
  · rcases List.mem_cons.mp h with h | h
    · exact absurd h (by decide)
    · exact plain_ne_newline _ (hv _ h) rfl

/-- The loop consumes an assignment line of fewer than 255 bytes as one line
and overwrites the field of its key. -/
theorem parse_stream_assign (k : Key) (v rest : List Char) (d : ServiceFileData)
    (hv0 : v ≠ []) (hv : ∀ x ∈ v, plain x = true) (hlen : (k.name ++ '=' :: v).length < 255) :
    parse_stream (k.name ++ '=' :: v ++ '\n' :: rest) d = parse_stream rest (d.set k v) := by
  have e : k.name ++ '=' :: v ++ '\n' :: rest = (k.name ++ '=' :: v) ++ '\n' :: rest := by simp
  have e2 : (k.name ++ '=' :: v) ++ ['\n'] = k.name ++ '=' :: v ++ ['\n'] := by simp
  have hvlen : v.length ≤ 255 := by
    simp only [List.length_append, List.length_cons] at hlen
    omega
  rw [e, parse_stream_line _ _ _ (newline_not_mem_assign k v hv) hlen, e2,
    parse_line_assign d k v hv0 hv hvlen]

theorem get_set_self (d : ServiceFileData) (k : Key) (v : CStr) : (d.set k v).get k = v := by
  cases k <;> rfl

/-- Lines that do not begin with the separator and do not name `k` before
their first separator leave the field of `k` as it was. -/
theorem parse_stream_unlines_get (k : Key) (Bs : List (List Char)) (d : ServiceFileData)
    (hB : ∀ L ∈ Bs, '\n' ∉ L ∧ L.length < 255 ∧ L.head? ≠ some '=' ∧
      L.takeWhile notSep ≠ k.name) :
    (parse_stream (unlines Bs) d).get k = d.get k := by
  induction Bs generalizing d with
  | nil => rfl
  | cons L Bs ih =>
    obtain ⟨h1, h2, h3, h4⟩ := hB L (by simp)
    simp only [unlines]
    rw [parse_stream_line L _ d h1 h2, ih _ (fun M hM => hB M (by simp [hM])),
      parse_line_get_of_key_ne d L k h3 h4]

theorem data_ext_get (d1 d2 : ServiceFileData) (h : ∀ k : Key, d1.get k = d2.get k) :
    d1 = d2 := by
  have h1 := h .type
  have h2 := h .exec_start
  have h3 := h .description
  have h4 := h .user
  cases d1; cases d2
  simp only [ServiceFileData.get] at h1 h2 h3 h4
  simp [h1, h2, h3, h4]

/-- A line without any separator carries no value, so it assigns nothing. -/
theorem parse_line_no_sep (d : ServiceFileData) (L : List Char) (h : '=' ∉ L) :
    parse_line d (L ++ ['\n']) = d := by
  rw [parse_line_eq, vis_line]
  cases hP : L.takeWhile lineChar with
  | nil => rfl
  | cons c t =>
    simp only
    by_cases hc : c = '#'
    · rw [if_pos hc]
    · rw [if_neg hc]
      have hsub : ∀ x ∈ c :: t, x ∈ L := by
        intro x hx
        rw [← hP] at hx
        exact (List.takeWhile_prefix lineChar).subset hx
      have hall : ∀ x ∈ c :: t, notSep x = true := by
        intro x hx
        have hne : x ≠ '=' := fun e => h (e ▸ hsub x hx)
        simp [notSep, hne]
      have hcs : c ≠ '=' := fun e => h (e ▸ hsub c (by simp))
      rw [strtok_first c t hcs]
      simp only
      rw [List.dropWhile_eq_nil_iff.mpr hall]
      rfl

/-- A blank line, a comment line, a line without a separator, or a line with
an unrecognised key leaves the data as it was. -/
theorem parse_line_ignored (d : ServiceFileData) (L : List Char)
    (hL : L = [] ∨ L.head? = some '#' ∨ '=' ∉ L ∨
      (L.head? ≠ some '=' ∧ ∀ k : Key, L.takeWhile notSep ≠ k.name)) :
    parse_line d (L ++ ['\n']) = d := by
  rcases hL with hL | hL | hL | ⟨h1, h2⟩
  · subst hL; rfl
  · cases L with
    | nil => simp at hL
    | cons a L =>
      have ha : a = '#' := by simpa using hL
      subst ha
      rw [parse_line_eq, vis_line]
      have : lineChar '#' = true := rfl
      simp [List.takeWhile_cons, this]
  · exact parse_line_no_sep d L hL
  · exact data_ext_get _ _ (fun k => parse_line_get_of_key_ne d L k h1 (h2 k))

/-! ## The value token and over-long lines -/

theorem plain_eq (c : Char) : plain c = (lineChar c && notSep c) := by
  rw [Bool.eq_iff_iff]
  simp only [plain, lineChar, notSep, Bool.and_eq_true, bne_iff_ne, ne_eq, Bool.not_eq_true',
    List.contains_cons, List.contains_nil, Bool.or_false, Bool.or_eq_false_iff, beq_eq_false_iff_ne]
  tauto

/-- A line `key=V` whose value starts with a plain byte reaches the `if` chain
with the key and with the plain bytes that `V` starts with: the value token
ends at the next separator, carriage return or NUL. -/
theorem parse_line_kv_cut (d : ServiceFileData) (c : Char) (t V : List Char)
    (hc : c ≠ '#') (hK : ∀ x ∈ c :: t, plain x = true)
    (hw : V.takeWhile plain ≠ []) :
    parse_line d ((c :: t) ++ '=' :: V ++ ['\n']) = store d (c :: t) (V.takeWhile plain) := by
  have hKl : ∀ x ∈ c :: t, lineChar x = true := fun x hx => plain_lineChar x (hK x hx)
  have hvis : vis ((c :: t) ++ '=' :: V ++ ['\n']) = c :: (t ++ '=' :: V.takeWhile lineChar) := by
    have e : (c :: t) ++ '=' :: V ++ ['\n'] = ((c :: t) ++ '=' :: V) ++ ['\n'] := by simp
    have hsep : lineChar '=' = true := rfl
    rw [e, vis_line, List.takeWhile_append_of_pos hKl, List.takeWhile_cons_of_pos hsep]
    rfl
  have hcsep : c ≠ '=' := plain_ne_sep c (hK c (by simp))
  have hKs : ∀ x ∈ c :: t, notSep x = true := fun x hx => plain_notSep x (hK x hx)
  have hs1 : strtok (c :: (t ++ '=' :: V.takeWhile lineChar)) ['=']
      = (some (c :: t), V.takeWhile lineChar) := by
    rw [strtok_first _ _ hcsep]
    have e : c :: (t ++ '=' :: V.takeWhile lineChar)
        = (c :: t) ++ '=' :: V.takeWhile lineChar := rfl
    rw [e, List.takeWhile_append_of_pos hKs, List.dropWhile_append_of_pos hKs]
    simp [notSep]
  have htok : (V.takeWhile lineChar).takeWhile notSep = V.takeWhile plain := by
    rw [takeWhile_takeWhile_and]
    congr 1
    funext x
    exact (plain_eq x).symm
  cases V with
  | nil => simp at hw
  | cons w0 V1 =>
    have hw0 : plain w0 = true := by
      by_cases h : plain w0 = true
      · exact h
      · simp [List.takeWhile_cons, h] at hw
    have hS : (w0 :: V1).takeWhile lineChar = w0 :: V1.takeWhile lineChar :=
      List.takeWhile_cons_of_pos (plain_lineChar w0 hw0)
    have hs2 : (strtok ((w0 :: V1).takeWhile lineChar) ['=']).1
        = some ((w0 :: V1).takeWhile plain) := by
      rw [← htok, hS, strtok_first _ _ (plain_ne_sep w0 hw0)]
    rw [parse_line_eq, hvis]
    simp only [if_neg hc, hs1, hs2]

/-- The value token of an assignment line for a recognised key overwrites the
field of the key. -/
theorem parse_line_assign_cut (d : ServiceFileData) (k : Key) (V : List Char)
    (hw : V.takeWhile plain ≠ []) (hlen : (V.takeWhile plain).length ≤ 255) :
    parse_line d (k.name ++ '=' :: V ++ ['\n']) = d.set k (V.takeWhile plain) := by
  obtain ⟨c, t, hk, hc, hK⟩ := key_name_cons k
  rw [hk, parse_line_kv_cut d c t V hc hK hw, ← hk, store_name d k _ hlen]

/-- A run of `n` bytes without a newline fills the buffer: the call returns
those bytes and leaves the rest of the line in the stream. -/
theorem fgetsAux_full (n : Nat) (X rest : List Char) (hnl : '\n' ∉ X) (hlen : X.length = n) :
    fgetsAux n (X ++ rest) = (X, rest) := by
  induction X generalizing n with
  | nil =>
    subst hlen
    simp [fgetsAux]
  | cons c X ih =>
    cases n with
    | zero => simp at hlen
    | succ n =>
      have hc : c ≠ '\n' := fun h => hnl (by simp [h])
      have hX : '\n' ∉ X := fun h => hnl (by simp [h])
      have := ih n hX (by simpa using hlen)
      simp [fgetsAux, hc, this]

theorem parse_stream_full (X rest : List Char) (d : ServiceFileData)
    (hnl : '\n' ∉ X) (hlen : X.length = 255) :
    parse_stream (X ++ rest) d = parse_stream rest (parse_line d X) := by
  have hne : X ++ rest ≠ [] := by
    intro h
    have := congrArg List.length h
    simp only [List.length_append, List.length_nil] at this
    omega
  have hf : fgets MAX_LINE_LENGTH (X ++ rest) = some (X, rest) := by
    rw [fgets_of_ne_nil _ _ hne]
    have h255 : MAX_LINE_LENGTH - 1 = 255 := rfl
    rw [h255, fgetsAux_full 255 X rest hnl hlen]
  have hl : (X ++ rest).length = (254 + rest.length) + 1 := by
    simp only [List.length_append]
    omega
  unfold parse_stream
  rw [hl]
  simp only [parse_loop, hf]
  exact parse_loop_eq_stream _ _ _ (by omega)

theorem parse_line_newline (d : ServiceFileData) : parse_line d ['\n'] = d := rfl

/-! ## `strstr`, `execute_command`, the threads and the enumeration loop -/

/-- A thread whose query can be invoked returns a record, and the record
carries the first 255 bytes of the name. -/
theorem process_services_name (env : Env) (uninit : ThreadData) (name : CStr)
    (hq : (execute_command env (query_command name) COMMAND_BUFFER_SIZE).isSome = true) :
    ∃ r, process_services env uninit name = some r ∧ r.service_name = name.take 255 := by
  obtain ⟨output, hout⟩ := Option.isSome_iff_exists.mp hq
  unfold process_services process_services_run
  simp only [hout]
  cases strstr output "FragmentPath=".toList with
  | none => exact ⟨_, rfl, rfl⟩
  | some found => exact ⟨_, rfl, rfl⟩

theorem join_spawn_names (env : Env) (uninit : Nat → ThreadData) (i : Nat) (names : List CStr)
    (hlen : ∀ n ∈ names, n.length < 256)
    (hq : ∀ n ∈ names,
      (execute_command env (query_command n) COMMAND_BUFFER_SIZE).isSome = true) :
    ∃ recs, join_all (spawn_all env uninit i names) = some recs ∧
      recs.map ThreadData.service_name = names := by
  induction names generalizing i with
  | nil => exact ⟨[], rfl, rfl⟩
  | cons n names ih =>
    obtain ⟨r, hr, hname⟩ := process_services_name env (uninit i) n (hq n (by simp))
    obtain ⟨recs, hrecs, hmap⟩ := ih (i + 1) (fun m hm => hlen m (by simp [hm]))
      (fun m hm => hq m (by simp [hm]))
    refine ⟨r :: recs, ?_, ?_⟩
    · simp only [spawn_all, hr, join_all, hrecs]
    · have h255 : n.take 255 = n := List.take_of_length_le (by
        have := hlen n (by simp)
        omega)
      simp only [List.map_cons, hname, h255, hmap]

theorem strstr_found_occurs (h n s : CStr) (hs : strstr h n = some s) : n <:+: h := by
  induction h with
  | nil =>
    by_cases hn : n = []
    · subst hn; exact List.infix_refl _
    · simp [strstr, hn] at hs
  | cons c t ih =>
    by_cases hp : n.isPrefixOf (c :: t) = true
    · exact (List.isPrefixOf_iff_prefix.mp hp).isInfix
    · simp only [strstr, hp] at hs
      exact List.infix_cons (ih hs)

theorem strstr_found_of_occurs (h n : CStr) (hi : n <:+: h) : (strstr h n).isSome = true := by
  induction h with
  | nil =>
    have hn : n = [] := List.eq_nil_of_infix_nil hi
    simp [strstr, hn]
  | cons c t ih =>
    by_cases hp : n.isPrefixOf (c :: t) = true
    · simp [strstr, hp]
    · simp only [strstr, hp]
      rcases List.infix_cons_iff.mp hi with h1 | h1
      · exact absurd (List.isPrefixOf_iff_prefix.mpr h1) hp
      · exact ih h1

theorem strstr_isSome_iff (h n : CStr) : (strstr h n).isSome = true ↔ n <:+: h := by
  constructor
  · intro hs
    obtain ⟨s, hs⟩ := Option.isSome_iff_exists.mp hs
    exact strstr_found_occurs h n s hs
  · exact strstr_found_of_occurs h n

/-- What `execute_command` leaves in `output` is a prefix of what the command
printed. -/
theorem execute_command_prefix (env : Env) (command out : CStr) (size : Nat)
    (stdout : List Char) (hp : env.popen command = some stdout)
    (hx : execute_command env command size = some out) : out <+: stdout := by
  unfold execute_command at hx
  rw [hp] at hx
  simp only at hx
  by_cases hc : env.pclose_fails command = true
  · simp [hc] at hx
  · simp only [hc] at hx
    have hout := Option.some.inj hx
    rw [← hout]
    cases stdout with
    | nil => exact List.prefix_rfl
    | cons a stdout =>
      simp only [fgets]
      have h1 : (fgetsAux (COMMAND_BUFFER_SIZE - 1) (a :: stdout)).1 <+: a :: stdout :=
        ⟨_, fgetsAux_append_eq _ _⟩
      exact ((List.take_prefix _ _).trans (List.takeWhile_prefix _)).trans h1

theorem enum_loop_spec (st : EnumState) (us : List UnitInfo) :
    (enum_loop st us).serviceNames
        = st.serviceNames ++
          (us.map UnitInfo.name).filter (fun n => decide (".service".toList <:+: n)) ∧
    (enum_loop st us).count
        = st.count +
          ((us.map UnitInfo.name).filter (fun n => decide (".service".toList <:+: n))).length := by
  induction us generalizing st with
  | nil => simp [enum_loop]
  | cons u us ih =>
    simp only [enum_loop, List.map_cons]
    by_cases hu : ".service".toList <:+: u.name
    · have hs : (strstr u.name ".service".toList).isSome = true := strstr_found_of_occurs _ _ hu
      obtain ⟨h1, h2⟩ := ih (enum_step st u)
      rw [h1, h2]
      simp only [enum_step, hs, if_true, List.filter_cons, hu, decide_True]
      constructor
      · simp
      · simp only [List.length_cons]; omega
    · have hs : ¬ (strstr u.name ".service".toList).isSome = true :=
        fun h => hu ((strstr_isSome_iff _ _).mp h)
      obtain ⟨h1, h2⟩ := ih (enum_step st u)
      rw [h1, h2]
      simp only [enum_step, hs, if_false, List.filter_cons, hu, decide_False]
      simp

/-! ## C1: report order -/

/-- C1: for every list of enumerated names, each shorter than 256 bytes, for
which every per-unit property query can be invoked (`execute_command` returns
0), the collection step of `main` produces a report with exactly as many
records as names, and the `service_name` of record `i` is the `i`-th name: the
report is in enumeration order.  The empty list is included. -/
theorem collect_in_enumeration_order (env : Env) (uninit : Nat → ThreadData)
    (names : List CStr)
    (hlen : ∀ n ∈ names, n.length < 256)
    (hq : ∀ n ∈ names,
      (execute_command env (query_command n) COMMAND_BUFFER_SIZE).isSome = true) :
    ∃ recs, collect env uninit names = some recs ∧
      recs.length = names.length ∧
      ∀ (i : Nat) (h1 : i < recs.length) (h2 : i < names.length),
        (recs.get ⟨i, h1⟩).service_name = names.get ⟨i, h2⟩ := by
  obtain ⟨recs, hrecs, hmap⟩ := join_spawn_names env uninit 0 names hlen hq
  subst hmap
  refine ⟨recs, hrecs, by simp, ?_⟩
  intro i h1 h2
  simp

/-- C1 at the two names `a.service`, `b.service`, and at the empty list. -/
theorem collect_in_enumeration_order_witness :
    (∃ recs, collect emptyPathEnv (fun _ => zeroBlock)
        ["a.service".toList, "b.service".toList] = some recs ∧
      recs.length = 2 ∧
      ∀ (i : Nat) (h1 : i < recs.length)
        (h2 : i < ["a.service".toList, "b.service".toList].length),
        (recs.get ⟨i, h1⟩).service_name
          = ["a.service".toList, "b.service".toList].get ⟨i, h2⟩) ∧
    collect emptyPathEnv (fun _ => zeroBlock) [] = some [] :=
  ⟨collect_in_enumeration_order emptyPathEnv (fun _ => zeroBlock)
    ["a.service".toList, "b.service".toList] (by decide) (by decide), rfl⟩

/-! ## C2: a failed property query -/

/-- C2 fails on the code: with the names `a.service`, `b.service` and a `popen`
that fails for the query of `b.service` only, the thread of `a.service` returns
a record, the thread of `b.service` returns NULL, and the join loop of `main`
reads through that NULL pointer: no report is produced, for either unit. -/
theorem failed_query_aborts_batch :
    (process_services failingQueryEnv zeroBlock "a.service".toList).isSome = true ∧
    process_services failingQueryEnv zeroBlock "b.service".toList = none ∧
    collect failingQueryEnv (fun _ => zeroBlock)
      ["a.service".toList, "b.service".toList] = none := by
  refine ⟨by rfl, by rfl, by rfl⟩

/-! ## C3: the not-found record -/

/-- C3, as stated, fails: when the query of `b.service` prints nothing (so no
`FragmentPath=` pair), the record built from a zeroed block has the path marker
`Service file not found`, which is not the string `service file not found`, and
its `type` field is the empty string of the block, not `not specified`: this
path writes none of the four descriptive fields. -/
theorem not_found_record_differs :
    ¬ ("FragmentPath=".toList <:+: ([] : List Char)) ∧
    ∃ r, process_services silentEnv zeroBlock "b.service".toList = some r ∧
      r.fragment_path = "Service file not found".toList ∧
      r.fragment_path ≠ "service file not found".toList ∧
      r.type = [] ∧
      r.type ≠ "not specified".toList := by
  refine ⟨by simp, _, rfl, by rfl, by decide, by rfl, by decide⟩

/-- C3 (amended): for every unit name whose property query can be invoked and
prints no `FragmentPath=` pair, `process_services` returns a record whose
`fragment_path` is `Service file not found`. -/
theorem not_found_marker (env : Env) (uninit : ThreadData) (name : CStr)
    (stdout : List Char)
    (hp : env.popen (query_command name) = some stdout)
    (hc : env.pclose_fails (query_command name) = false)
    (hno : ¬ ("FragmentPath=".toList <:+: stdout)) :
    ∃ r, process_services env uninit name = some r ∧
      r.fragment_path = "Service file not found".toList := by
  have hx : ∃ out, execute_command env (query_command name) COMMAND_BUFFER_SIZE = some out := by
    unfold execute_command
    rw [hp]
    simp [hc]
  obtain ⟨out, hout⟩ := hx
  have hpre := execute_command_prefix env _ out _ stdout hp hout
  have hnone : strstr out "FragmentPath=".toList = none := by
    cases hs : strstr out "FragmentPath=".toList with
    | none => rfl
    | some s => exact absurd ((strstr_found_occurs _ _ _ hs).trans hpre.isInfix) hno
  unfold process_services process_services_run
  simp only [hout, hnone]
  exact ⟨_, rfl, rfl⟩

/-- C3 (amended) at the unit `b.service` whose query prints nothing. -/
theorem not_found_marker_witness :
    ∃ r, process_services silentEnv zeroBlock "b.service".toList = some r ∧
      r.fragment_path = "Service file not found".toList :=
  not_found_marker silentEnv zeroBlock "b.service".toList [] rfl rfl (by simp)

/-! ## C4: an empty `FragmentPath` -/

/-- C4, as stated, fails: when the query of `a.service` prints `FragmentPath=`
and a newline, `strstr` finds the property, so `process_services` takes the
found branch with the empty path.  `parse_service_file` is invoked, on the
empty path, and the record carries the empty string as `fragment_path`, not
the not-found marker. -/
theorem empty_path_is_parsed :
    emptyPathEnv.popen (query_command "a.service".toList) = some "FragmentPath=\n".toList ∧
    (process_services_run emptyPathEnv zeroBlock "a.service".toList).parsed = [[]] ∧
    (process_services_run emptyPathEnv zeroBlock "a.service".toList).parsed ≠ [] ∧
    ∃ r, process_services emptyPathEnv zeroBlock "a.service".toList = some r ∧
      r.fragment_path = [] ∧
      r.fragment_path ≠ "Service file not found".toList ∧
      r.fragment_path ≠ "service file not found".toList := by
  refine ⟨rfl, by rfl, by decide, _, rfl, by rfl, by decide, by decide⟩

/-- C4 (amended): when the query prints the line `FragmentPath=` with an empty
value, `process_services` takes the found branch with the empty path:
`parse_service_file` is invoked on the empty path, the record carries the empty
string as `fragment_path`, and when the empty path cannot be opened all four
descriptive fields are `Not specified`. -/
theorem empty_value_takes_found_branch (env : Env) (uninit : ThreadData) (name : CStr)
    (rest : List Char)
    (hp : env.popen (query_command name) = some ("FragmentPath=".toList ++ '\n' :: rest))
    (hc : env.pclose_fails (query_command name) = false) :
    (process_services_run env uninit name).parsed = [[]] ∧
    ∃ r, process_services env uninit name = some r ∧
      r.fragment_path = [] ∧
      (env.fopen [] = none →
        r.type = "Not specified".toList ∧ r.exec_start = "Not specified".toList ∧
        r.description = "Not specified".toList ∧ r.user = "Not specified".toList) := by
  have hout : execute_command env (query_command name) COMMAND_BUFFER_SIZE
      = some "FragmentPath=\n".toList := by
    unfold execute_command
    have hf : fgets COMMAND_BUFFER_SIZE ("FragmentPath=".toList ++ '\n' :: rest)
        = some ("FragmentPath=".toList ++ ['\n'], rest) := by
      rw [fgets_of_ne_nil _ _ (by simp)]
      have h255 : COMMAND_BUFFER_SIZE - 1 = 255 := rfl
      rw [h255, fgetsAux_line 255 "FragmentPath=".toList rest (by decide) (by decide)]
    simp only [hp, hf, hc]
    rfl
  have hstr : strstr "FragmentPath=\n".toList "FragmentPath=".toList
      = some "FragmentPath=\n".toList := by rfl
  have hpath : (List.drop "FragmentPath=".toList.length "FragmentPath=\n".toList).take
      (strcspn (List.drop "FragmentPath=".toList.length "FragmentPath=\n".toList) ['\r', '\n'])
      = [] := by rfl
  unfold process_services process_services_run
  simp only [hout, hstr, hpath]
  refine ⟨trivial, _, rfl, rfl, ?_⟩
  intro hopen
  simp only [parse_service_file, hopen]
  exact ⟨rfl, rfl, rfl, rfl⟩

/-- C4 (amended) at the unit `a.service` whose query prints `FragmentPath=`
and a newline. -/
theorem empty_value_takes_found_branch_witness :
    (process_services_run emptyPathEnv zeroBlock "a.service".toList).parsed = [[]] ∧
    ∃ r, process_services emptyPathEnv zeroBlock "a.service".toList = some r ∧
      r.fragment_path = [] ∧
      (emptyPathEnv.fopen [] = none →
        r.type = "Not specified".toList ∧ r.exec_start = "Not specified".toList ∧
        r.description = "Not specified".toList ∧ r.user = "Not specified".toList) :=
  empty_value_takes_found_branch emptyPathEnv zeroBlock "a.service".toList [] rfl rfl

/-! ## C5: round trip -/

/-- C5, as stated, fails at a value that holds a NUL byte: `t` = `a`, NUL, `b`
is non-empty, free of `=`, carriage return and newline, and its line is far
below 255 bytes, yet the file
`Type=a<NUL>b\nDescription=demo\nExecStart=/bin/true\nUser=root\n` parses to
Type = `a`, not to `t`: the C string in `line` ends at the NUL byte. -/
theorem round_trip_fails_on_nul :
    (['a', '\x00', 'b'] ≠ [] ∧
      (∀ c ∈ ['a', '\x00', 'b'], c ≠ '=' ∧ c ≠ '\r' ∧ c ≠ '\n') ∧
      ("Type=".toList ++ ['a', '\x00', 'b']).length < 255) ∧
    (parse_service_file
      (fileEnv ("Type=".toList ++ ['a', '\x00', 'b'] ++ ['\n'] ++
        "Description=".toList ++ "demo".toList ++ ['\n'] ++
        "ExecStart=".toList ++ "/bin/true".toList ++ ['\n'] ++
        "User=".toList ++ "root".toList ++ ['\n'])) []).type = ['a'] ∧
    ['a'] ≠ ['a', '\x00', 'b'] := by
  refine ⟨⟨by decide, by decide, by decide⟩, by rfl, by decide⟩

/-- C5 (amended): for all values `t`, `d`, `e`, `u` that are non-empty, made of
plain bytes (no `=`, carriage return, newline or NUL) and keep each line under
255 bytes, `parse_service_file` on a file with the contents
`Type=t\nDescription=d\nExecStart=e\nUser=u\n` yields exactly Type = `t`,
Description = `d`, ExecStart = `e`, User = `u`. -/
theorem round_trip (path : CStr) (t d e u : List Char)
    (ht0 : t ≠ []) (hd0 : d ≠ []) (he0 : e ≠ []) (hu0 : u ≠ [])
    (ht : ∀ c ∈ t, plain c = true) (hd : ∀ c ∈ d, plain c = true)
    (he : ∀ c ∈ e, plain c = true) (hu : ∀ c ∈ u, plain c = true)
    (htl : ("Type=".toList ++ t).length < 255)
    (hdl : ("Description=".toList ++ d).length < 255)
    (hel : ("ExecStart=".toList ++ e).length < 255)
    (hul : ("User=".toList ++ u).length < 255) :
    parse_service_file
      (fileEnv ("Type=".toList ++ t ++ ['\n'] ++
        "Description=".toList ++ d ++ ['\n'] ++
        "ExecStart=".toList ++ e ++ ['\n'] ++
        "User=".toList ++ u ++ ['\n'])) path
      = { type := t, exec_start := e, description := d, user := u } := by
  have hfile : "Type=".toList ++ t ++ ['\n'] ++ "Description=".toList ++ d ++ ['\n'] ++
        "ExecStart=".toList ++ e ++ ['\n'] ++ "User=".toList ++ u ++ ['\n']
      = Key.type.name ++ '=' :: t ++ '\n' ::
          (Key.description.name ++ '=' :: d ++ '\n' ::
            (Key.exec_start.name ++ '=' :: e ++ '\n' ::
              (Key.user.name ++ '=' :: u ++ '\n' :: []))) := by
    have k1 : "Type=".toList = Key.type.name ++ ['='] := rfl
    have k2 : "Description=".toList = Key.description.name ++ ['='] := rfl
    have k3 : "ExecStart=".toList = Key.exec_start.name ++ ['='] := rfl
    have k4 : "User=".toList = Key.user.name ++ ['='] := rfl
    rw [k1, k2, k3, k4]
    simp only [List.append_assoc, List.singleton_append, List.cons_append, List.nil_append]
  have l1 : (Key.type.name ++ '=' :: t).length < 255 := by
    have : Key.type.name ++ '=' :: t = "Type=".toList ++ t := rfl
    rw [this]; exact htl
  have l2 : (Key.description.name ++ '=' :: d).length < 255 := by
    have : Key.description.name ++ '=' :: d = "Description=".toList ++ d := rfl
    rw [this]; exact hdl
  have l3 : (Key.exec_start.name ++ '=' :: e).length < 255 := by
    have : Key.exec_start.name ++ '=' :: e = "ExecStart=".toList ++ e := rfl
    rw [this]; exact hel
  have l4 : (Key.user.name ++ '=' :: u).length < 255 := by
    have : Key.user.name ++ '=' :: u = "User=".toList ++ u := rfl
    rw [this]; exact hul
  rw [parse_service_file_fileEnv, hfile,
    parse_stream_assign _ _ _ _ ht0 ht l1, parse_stream_assign _ _ _ _ hd0 hd l2,
    parse_stream_assign _ _ _ _ he0 he l3, parse_stream_assign _ _ _ _ hu0 hu l4]
  rfl

/-- C5 (amended), at `t` = notify, `d` = demo, `e` = /bin/true, `u` = root. -/
theorem round_trip_witness :
    parse_service_file
      (fileEnv ("Type=".toList ++ "notify".toList ++ ['\n'] ++
        "Description=".toList ++ "demo".toList ++ ['\n'] ++
        "ExecStart=".toList ++ "/bin/true".toList ++ ['\n'] ++
        "User=".toList ++ "root".toList ++ ['\n'])) []
      = { type := "notify".toList, exec_start := "/bin/true".toList,
          description := "demo".toList, user := "root".toList } :=
  round_trip [] "notify".toList "demo".toList "/bin/true".toList "root".toList
    (by decide) (by decide) (by decide) (by decide)
    (by decide) (by decide) (by decide) (by decide)
    (by decide) (by decide) (by decide) (by decide)

/-! ## C6: the value of an assignment -/

/-- C6, as stated, fails: the line `ExecStart=/bin/foo --opt=1` stores
`/bin/foo --opt`.  The value is the second `strtok(…, "=")` token, which ends
at the next `=`. -/
theorem value_cut_at_second_separator :
    (parse_service_file (fileEnv "ExecStart=/bin/foo --opt=1\n".toList) []).exec_start
        = "/bin/foo --opt".toList ∧
    "/bin/foo --opt".toList ≠ "/bin/foo --opt=1".toList := by
  refine ⟨by rfl, by decide⟩

/-- C6 (amended): for a line `key=V` under 255 bytes, with a recognised key and
a value that starts with a plain byte, `parse_service_file` stores the part of
`V` before its first further `=`, carriage return or NUL: the value is the
second `strtok` token, so it is the whole of `V` only when `V` holds none of
these bytes.  `A` is the part of the file before the line. -/
theorem value_is_second_token (path : CStr) (A : List Char) (k : Key) (V : List Char)
    (hA : LineEnded A) (hnl : '\n' ∉ V)
    (hlen : (k.name ++ '=' :: V).length < 255)
    (hw : V.takeWhile plain ≠ []) :
    (parse_service_file (fileEnv (A ++ (k.name ++ '=' :: V ++ ['\n']))) path).get k
      = V.takeWhile plain := by
  have hline : '\n' ∉ k.name ++ '=' :: V := by
    obtain ⟨c, t, hk, _, hK⟩ := key_name_cons k
    intro h
    rcases List.mem_append.mp h with h | h
    · rw [hk] at h
      exact plain_ne_newline _ (hK _ h) rfl
    · rcases List.mem_cons.mp h with h | h
      · exact absurd h (by decide)
      · exact hnl h
  have hwlen : (V.takeWhile plain).length ≤ 255 := by
    have h1 : (V.takeWhile plain).length ≤ V.length :=
      (List.takeWhile_prefix plain).length_le
    simp only [List.length_append, List.length_cons] at hlen
    omega
  have e : k.name ++ '=' :: V ++ ['\n'] = (k.name ++ '=' :: V) ++ '\n' :: [] := by simp
  have e2 : (k.name ++ '=' :: V) ++ ['\n'] = k.name ++ '=' :: V ++ ['\n'] := by simp
  rw [parse_service_file_fileEnv, parse_stream_append A _ _ hA, e,
    parse_stream_line _ _ _ hline hlen, e2, parse_line_assign_cut _ k V hw hwlen,
    parse_stream_nil, get_set_self]

/-- C6 (amended) at the line `ExecStart=/bin/foo --opt=1`: the value stored is
`/bin/foo --opt`. -/
theorem value_is_second_token_witness :
    (parse_service_file
      (fileEnv ([] ++ (Key.exec_start.name ++ '=' :: "/bin/foo --opt=1".toList ++ ['\n'])))
      []).get Key.exec_start = "/bin/foo --opt".toList :=
  (value_is_second_token [] [] Key.exec_start "/bin/foo --opt=1".toList
    (Or.inl rfl) (by decide) (by decide) (by decide)).trans (by rfl)

/-! ## C7: repeated keys -/

/-- C7, as stated, fails: `Type=a\nType=b\n` parses to Type = `b`, the value
of the last assignment, not to `a`. -/
theorem first_assignment_does_not_win :
    (parse_service_file (fileEnv "Type=a\nType=b\n".toList) []).type = ['b'] ∧
    (parse_service_file (fileEnv "Type=a\nType=b\n".toList) []).type ≠ ['a'] := by
  refine ⟨by rfl, by decide⟩

/-- C7 (amended): the last assignment wins.  Take any file that consists of a
part `A` (empty or ending in a newline, with any earlier assignments), then
the line `key=v` for a recognised key with a non-empty value of plain bytes on
a line under 255 bytes, then lines `Bs` under 255 bytes that neither begin with
`=` nor carry the key's name before their first `=`.  `parse_service_file`
returns `v` for that key. -/
theorem last_assignment_wins (path : CStr) (A : List Char) (Bs : List (List Char))
    (k : Key) (v : List Char)
    (hA : LineEnded A)
    (hv0 : v ≠ []) (hv : ∀ c ∈ v, plain c = true)
    (hlen : (k.name ++ '=' :: v).length < 255)
    (hB : ∀ L ∈ Bs, '\n' ∉ L ∧ L.length < 255 ∧ L.head? ≠ some '=' ∧
      L.takeWhile notSep ≠ k.name) :
    (parse_service_file (fileEnv (A ++ (k.name ++ '=' :: v ++ '\n' :: unlines Bs))) path).get k
      = v := by
  rw [parse_service_file_fileEnv, parse_stream_append A _ _ hA,
    parse_stream_assign k v _ _ hv0 hv hlen, parse_stream_unlines_get k Bs _ hB,
    get_set_self]

/-- C7 (amended), at the file `Type=a\nType=b\nUser=root\n`: Type = `b`. -/
theorem last_assignment_wins_witness :
    (parse_service_file
      (fileEnv ("Type=a\n".toList ++
        (Key.type.name ++ '=' :: ['b'] ++ '\n' :: unlines ["User=root".toList]))) []).get
        Key.type = ['b'] :=
  last_assignment_wins [] "Type=a\n".toList ["User=root".toList] Key.type ['b']
    (Or.inr ⟨"Type=a".toList, rfl⟩) (by decide) (by decide) (by decide) (by decide)

/-! ## C8: ignored lines -/

/-- C8: inserting or deleting an ignorable line changes nothing.  `A` is the
part of the file before the line (empty or ending in a newline), `B` the part
after it, and `L` the line, under 255 bytes: a blank line, a line beginning
with `#`, or a line that does not begin with `=` and whose text before its
first `=` is none of `Type`, `ExecStart`, `Description`, `User` (a line with no
`=` at all included).  The file with the line and the file without it parse to
the same data, whatever `A` and `B` hold.  In particular
`# comment\n\nType=oneshot\n` yields only Type = oneshot and
`Foo=bar\nType=simple\n` yields only Type = simple, the other three fields
staying empty. -/
theorem ignored_line_changes_nothing (path : CStr) (A B L : List Char)
    (hA : LineEnded A) (hnl : '\n' ∉ L) (hlen : L.length < 255)
    (hL : L = [] ∨ L.head? = some '#' ∨ '=' ∉ L ∨
      (L.head? ≠ some '=' ∧ ∀ k : Key, L.takeWhile notSep ≠ k.name)) :
    parse_service_file (fileEnv (A ++ (L ++ '\n' :: B))) path
        = parse_service_file (fileEnv (A ++ B)) path ∧
    parse_service_file (fileEnv "# comment\n\nType=oneshot\n".toList) path
        = { type := "oneshot".toList, exec_start := [], description := [], user := [] } ∧
    parse_service_file (fileEnv "Foo=bar\nType=simple\n".toList) path
        = { type := "simple".toList, exec_start := [], description := [], user := [] } := by
  refine ⟨?_, by rfl, by rfl⟩
  rw [parse_service_file_fileEnv, parse_service_file_fileEnv,
    parse_stream_append A _ _ hA, parse_stream_append A _ _ hA,
    parse_stream_line L B _ hnl hlen, parse_line_ignored _ L hL]

/-- C8 at the file `Type=simple\nUser=root\n` and the line `Foo=bar` inserted
after its first line. -/
theorem ignored_line_changes_nothing_witness :
    parse_service_file
        (fileEnv ("Type=simple\n".toList ++ ("Foo=bar".toList ++ '\n' :: "User=root\n".toList))) []
      = parse_service_file (fileEnv ("Type=simple\n".toList ++ "User=root\n".toList)) [] :=
  (ignored_line_changes_nothing [] "Type=simple\n".toList "User=root\n".toList "Foo=bar".toList
    (Or.inr ⟨"Type=simple".toList, rfl⟩) (by decide) (by decide)
    (Or.inr (Or.inr (Or.inr ⟨by decide, fun k => by cases k <;> decide⟩)))).1

/-! ## C9: the enumeration filter -/

/-- C9, as stated, fails: the filter is `strstr(name, ".service") != NULL`, a
substring test.  For the reply `a.service`, `srv-x.service.mount`, `b.socket`
the function returns true with count 2 and keeps `srv-x.service.mount`, a name
that does not end in `.service`. -/
theorem substring_filter_keeps_mount_unit :
    EnumerateServiceNames mountBus
      = (true, ["a.service".toList, "srv-x.service.mount".toList], 2) ∧
    ¬ (".service".toList <:+ "srv-x.service.mount".toList) := by
  refine ⟨by rfl, by decide⟩

/-- C9 (amended): when the bus calls succeed and the records are read without
error, `EnumerateServiceNames` returns true with exactly the names that contain
the substring `.service`, in the order of the reply, and `count` is the number
of names kept.  A name that contains `.service` without ending in it is
kept. -/
theorem enumerate_keeps_substring_matches (bus : Bus)
    (h1 : 0 ≤ bus.open_r) (h2 : 0 ≤ bus.call_r) (h3 : 0 ≤ bus.enter_r)
    (h4 : 0 ≤ bus.end_r) :
    EnumerateServiceNames bus
      = (true,
         (bus.units.map UnitInfo.name).filter (fun n => decide (".service".toList <:+: n)),
         ((bus.units.map UnitInfo.name).filter
            (fun n => decide (".service".toList <:+: n))).length) := by
  obtain ⟨e1, e2⟩ := enum_loop_spec { serviceNames := [], count := 0, capacity := 10 } bus.units
  unfold EnumerateServiceNames
  simp only [Int.not_lt.mpr h1, Int.not_lt.mpr h2, Int.not_lt.mpr h3, Int.not_lt.mpr h4,
    if_false, e1, e2]
  simp

/-- C9 (amended) at the reply `a.service`, `srv-x.service.mount`, `b.socket`. -/
theorem enumerate_keeps_substring_matches_witness :
    EnumerateServiceNames mountBus
      = (true,
         (mountBus.units.map UnitInfo.name).filter
           (fun n => decide (".service".toList <:+: n)),
         ((mountBus.units.map UnitInfo.name).filter
            (fun n => decide (".service".toList <:+: n))).length) :=
  enumerate_keeps_substring_matches mountBus (by decide) (by decide) (by decide) (by decide)

/-! ## C10: over-long lines -/

set_option maxRecDepth 100000 in
/-- C10, as stated, fails: the line `longLine` is a comment of 264 bytes whose
bytes after the first 255 read `Type=evil`.  The file with that line parses to
Type = evil, while the file in which the line is replaced by its first 255
bytes leaves Type empty: the bytes beyond the cap are parsed as a line of
their own and set a field. -/
theorem long_line_is_split :
    longLine.length = 264 ∧
    (parse_service_file (fileEnv (longLine ++ ['\n'])) []).type = "evil".toList ∧
    (parse_service_file (fileEnv (longLine.take 255 ++ ['\n'])) []).type = [] ∧
    parse_service_file (fileEnv (longLine ++ ['\n'])) []
      ≠ parse_service_file (fileEnv (longLine.take 255 ++ ['\n'])) [] := by
  have h1 : (parse_service_file (fileEnv (longLine ++ ['\n'])) []).type = "evil".toList := by
    rfl
  have h2 : (parse_service_file (fileEnv (longLine.take 255 ++ ['\n'])) []).type = [] := by
    rfl
  refine ⟨by rfl, h1, h2, ?_⟩
  intro h
  rw [h, h2] at h1
  exact absurd h1 (by decide)

/-- C10 (amended): an over-long line is split, not truncated.  When 255 bytes
`X` without a newline stand at the start of a line, the file parses exactly as
the file with a newline inserted after `X`: the bytes of the line beyond the
first 255 are parsed as a line of their own.  `A` is the part of the file
before the line, `rest` everything after the 255 bytes. -/
theorem long_line_parsed_in_pieces (path : CStr) (A X rest : List Char)
    (hA : LineEnded A) (hnl : '\n' ∉ X) (hlen : X.length = 255) :
    parse_service_file (fileEnv (A ++ (X ++ rest))) path
      = parse_service_file (fileEnv (A ++ (X ++ '\n' :: rest))) path := by
  have h2 : parse_stream ('\n' :: rest) (parse_line (parse_stream A ServiceFileData.zero) X)
      = parse_stream rest (parse_line (parse_stream A ServiceFileData.zero) X) := by
    have := parse_stream_line [] rest (parse_line (parse_stream A ServiceFileData.zero) X)
      (by simp) (by simp)
    simpa [parse_line_newline] using this
  rw [parse_service_file_fileEnv, parse_service_file_fileEnv,
    parse_stream_append A _ _ hA, parse_stream_append A _ _ hA,
    parse_stream_full X rest _ hnl hlen, parse_stream_full X _ _ hnl hlen, h2]

set_option maxRecDepth 100000 in
/-- C10 (amended) at the line `longLine`: its first 255 bytes, then
`Type=evil`. -/
theorem long_line_parsed_in_pieces_witness :
    parse_service_file (fileEnv ([] ++ (longLine.take 255 ++ "Type=evil\n".toList))) []
      = parse_service_file
          (fileEnv ([] ++ (longLine.take 255 ++ '\n' :: "Type=evil\n".toList))) [] :=
  long_line_parsed_in_pieces [] [] (longLine.take 255) "Type=evil\n".toList
    (Or.inl rfl) (by decide) (by rfl)

end Services
